import Mathlib

/-!
# Verification of the field-mapping reconciliation engine

Shallow embedding of the mapping core of the `xconnect_backend` repository
(`service_impl/mapping_service.py`, `impl/db/models.py`, `impl/db/session.py`)
together with the parts of Python it relies on:

* `str.lower` / `str.isalnum` / `str.strip` are modelled on their ASCII
  behaviour (`Char.toLower` in core Lean is exactly CPython basic-latin
  lowering); all field names handled by the service are ASCII.
* `difflib.SequenceMatcher.ratio()` is embedded exactly (no junk heuristic
  applies: `autojunk` only triggers for strings of length >= 200, far above
  any normalized field name).  Scores are represented as exact rationals;
  the threshold `0.78` is `39/50`.
* Python `dict`s are modelled as insertion-ordered association lists whose
  insert overwrites the value of an existing key in place, preserving key
  order, as CPython dicts do.
* Python truthiness of an optional string (`if chosen:`) is `some s` with
  `s` non-empty.
-/

namespace XConnect

/-! ## Python string primitives (ASCII model) -/

/-- Python whitespace characters stripped by `str.strip()` (ASCII part). -/
def isPySpace (c : Char) : Bool :=
  c = ' ' || c = '\t' || c = '\n' || c = '\x0d' || c = '\x0b' || c = '\x0c'

/-- `str.strip()` on the underlying character list. -/
def stripChars (l : List Char) : List Char :=
  ((l.dropWhile isPySpace).reverse.dropWhile isPySpace).reverse

/-- `str.strip()`. -/
def pyStrip (s : String) : String := ⟨stripChars s.data⟩

/-- `str.lower()` (ASCII model; `Char.toLower` lowers exactly `A`-`Z`). -/
def pyLower (s : String) : String := ⟨s.data.map Char.toLower⟩

/-- `s[:n]` on a Python string. -/
def strTake (n : Nat) (s : String) : String := ⟨s.data.take n⟩

/-- Truthiness of `chosen` where `chosen : str | None`:
`None` and the empty string are falsy. -/
def pyTruthyOpt : Option String → Bool
  | none => false
  | some s => s ≠ ""

/-- `", ".join`-style joining. -/
def joinSep (sep : String) : List String → String
  | [] => ""
  | [x] => x
  | x :: y :: xs => x ++ sep ++ joinSep sep (y :: xs)

/-! ## `MappingService._normalize_name`

```python
@staticmethod
def _normalize_name(name: str) -> str:
    return "".join(ch for ch in name.lower() if ch.isalnum())
```
-/

/-- Characters of the normalized name: lowercase then keep alphanumerics. -/
def normChars (l : List Char) : List Char :=
  (l.map Char.toLower).filter Char.isAlphanum

/-- `MappingService._normalize_name`. -/
def normalize_name (s : String) : String := ⟨normChars s.data⟩

/-! ## `MappingService._basic_validate_mapping`

```python
def _basic_validate_mapping(self, mapping, direction) -> None:
    errors = []
    for sn_field, gh_field in mapping.items():
        if not str(sn_field).strip():
            errors.append("ServiceNow field names must be non-empty")
        if not str(gh_field).strip():
            errors.append(f"GitHub field for '{sn_field}' must be non-empty")
    if direction == "bidirectional":
        seen, duplicates = set(), set()
        for gh_field in mapping.values():
            if gh_field in seen: duplicates.add(gh_field)
            seen.add(gh_field)
        if duplicates:
            errors.append("Bidirectional mappings must be one-to-one. "
                          f"Duplicate GitHub targets: {', '.join(sorted(duplicates))}")
    if errors:
        raise HTTPException(400, detail="; ".join(errors))
```
-/

def keyErrMsg : String := "ServiceNow field names must be non-empty"

def valErrMsg (sn_field : String) : String :=
  "GitHub field for \x27" ++ sn_field ++ "\x27 must be non-empty"

/-- The structural violations recorded for one `(sn_field, gh_field)` pair. -/
def pairErrors (kv : String × String) : List String :=
  (if stripChars kv.1.data = [] then [keyErrMsg] else []) ++
  (if stripChars kv.2.data = [] then [valErrMsg kv.1] else [])

/-- All structural violations, in iteration order of the mapping. -/
def structuralErrors (m : List (String × String)) : List String :=
  m.flatMap pairErrors

/-- Add to a set modelled as a duplicate-free list (Python `set.add`). -/
def addSet (s : String) (l : List String) : List String :=
  if s ∈ l then l else l ++ [s]

/-- The `seen`/`duplicates` scan over the mapping values. -/
def dupScan (vals : List String) : List String × List String :=
  vals.foldl
    (fun sd v =>
      (addSet v sd.1, if v ∈ sd.1 then addSet v sd.2 else sd.2))
    ([], [])

/-- Insertion sort by `<` on strings (Python `sorted` on code points). -/
def sortedInsert (s : String) : List String → List String
  | [] => [s]
  | x :: xs => if s < x then s :: x :: xs else x :: sortedInsert s xs

def sortStrings (l : List String) : List String := l.foldr sortedInsert []

def dupErrHead : String :=
  "Bidirectional mappings must be one-to-one. Duplicate GitHub targets: "

/-- The (zero or one) injectivity violation. -/
def dupErrors (m : List (String × String)) (direction : String) : List String :=
  if direction = "bidirectional" then
    let dups := (dupScan (m.map Prod.snd)).2
    if dups = [] then [] else [dupErrHead ++ joinSep ", " (sortStrings dups)]
  else []

/-- The full violation list collected by the validator. -/
def validatorErrors (m : List (String × String)) (direction : String) :
    List String :=
  structuralErrors m ++ dupErrors m direction

/-- `MappingService._basic_validate_mapping`: `none` on success, otherwise
the `detail` string of the raised 400 error. -/
def basic_validate_mapping (m : List (String × String)) (direction : String) :
    Option String :=
  let errors := validatorErrors m direction
  if errors = [] then none else some (joinSep "; " errors)

/-! ## `difflib.SequenceMatcher.ratio`

`ratio()` is `2*M / (len(a)+len(b))` where `M` is the total size of the
matching blocks found by `get_matching_blocks`: repeatedly take the longest
common contiguous block (ties resolved to the block found first by the
`find_longest_match` scan: smallest start in `a`, then smallest start in
`b`), and recurse on the pieces left and right of it.  With no junk and no
`autojunk` (strings shorter than 200 characters) this is the whole
algorithm.  `lmFold` reproduces the scan: it visits candidate positions in
increasing `(i, j)` order and keeps the first strict improvement, which is
exactly the best block the CPython `j2len` loop reports. -/

/-- Length of the common prefix run of two character lists. -/
def runLen : List Char → List Char → Nat
  | x :: xs, y :: ys => if x = y then runLen xs ys + 1 else 0
  | _, _ => 0

/-- One inner-loop step of the `find_longest_match` scan: a strictly longer
block ending at `(i, j)` replaces the best so far. -/
def lmStep (a b : List Char) (i : Nat) (best : Nat × Nat × Nat) (j : Nat) :
    Nat × Nat × Nat :=
  if best.2.2 < runLen (a.drop i) (b.drop j) then
    (i, j, runLen (a.drop i) (b.drop j))
  else best

/-- The inner loop over all positions of `b` for a fixed `i`. -/
def lmOuter (a b : List Char) (best : Nat × Nat × Nat) (i : Nat) :
    Nat × Nat × Nat :=
  (List.range b.length).foldl (lmStep a b i) best

/-- `find_longest_match` over whole lists: `(i, j, k)` of the longest
common block, first-found ties (smallest `i`, then smallest `j`). -/
def lmFold (a b : List Char) : Nat × Nat × Nat :=
  (List.range a.length).foldl (lmOuter a b) (0, 0, 0)

/-- Total matched size `M` of `get_matching_blocks`, with structural fuel
(any fuel `≥ a.length` computes the true value; see `totalMAux_fuel`). -/
def totalMAux : Nat → List Char → List Char → Nat
  | 0, _, _ => 0
  | fuel + 1, a, b =>
    if 0 < (lmFold a b).2.2 then
      totalMAux fuel (a.take (lmFold a b).1) (b.take (lmFold a b).2.1) +
        (lmFold a b).2.2 +
        totalMAux fuel (a.drop ((lmFold a b).1 + (lmFold a b).2.2))
          (b.drop ((lmFold a b).2.1 + (lmFold a b).2.2))
    else 0

def totalM (a b : List Char) : Nat := totalMAux a.length a b

/-- `SequenceMatcher(a=a, b=b).ratio()` as an exact rational
(`_calculate_ratio`: `1.0` when both strings are empty). -/
def ratioQ (a b : List Char) : ℚ :=
  if a.length + b.length = 0 then 1
  else (2 * totalM a b : ℚ) / (a.length + b.length)

/-- `ratio` on strings. -/
def ratioS (a b : String) : ℚ := ratioQ a.data b.data

/-! ## Ordered association lists (Python `dict`) -/

/-- `d[k] = v`: overwrite in place if the key exists, else append. -/
def insertA (m : List (String × String)) (k v : String) :
    List (String × String) :=
  match m with
  | [] => [(k, v)]
  | kv :: rest => if kv.1 = k then (k, v) :: rest else kv :: insertA rest k v

/-- `d.get(k)` / `k in d` + `d[k]`. -/
def lookupA (m : List (String × String)) (k : String) : Option String :=
  match m with
  | [] => none
  | kv :: rest => if kv.1 = k then some kv.2 else lookupA rest k

/-! ## `MappingService._fuzzy_match` and `_suggest_mapping`

```python
def _suggest_mapping(self, sn_fields, gh_fields):
    notes, mapping = [], {}
    gh_norm_map = {self._normalize_name(f): f for f in gh_fields}
    synonyms = {...}
    for sn in sn_fields:
        norm = self._normalize_name(sn)
        chosen = None
        if norm in gh_norm_map:
            chosen = gh_norm_map[norm]; notes.append(exact note)
        else:
            for candidate in synonyms.get(norm, []):
                cnorm = self._normalize_name(candidate)
                if cnorm in gh_norm_map:
                    chosen = gh_norm_map[cnorm]; notes.append(synonym note); break
        if not chosen:
            chosen, score = self._fuzzy_match(norm, gh_norm_map)
            if chosen: notes.append(fuzzy note)
        if chosen:
            mapping[sn] = chosen
    return mapping, notes

def _fuzzy_match(self, norm_sn, gh_norm_map):
    best = (None, 0.0)
    for gh_norm, gh_field in gh_norm_map.items():
        score = SequenceMatcher(a=norm_sn, b=gh_norm).ratio()
        if score > best[1]: best = (gh_field, score)
    if best[0] and best[1] >= self._FUZZY_THRESHOLD: return best
    return None, 0.0
```

The notes are modelled as structured values rather than the f-strings of the
source (their text, including the `{score:.2f}` float rendering, is not
load-bearing for any claim; their kind, field names and score are). -/

/-- `{self._normalize_name(f): f for f in gh_fields}`. -/
def ghNormMap (gh_fields : List String) : List (String × String) :=
  gh_fields.foldl (fun m f => insertA m (normalize_name f) f) []

/-- The fixed synonym table of `_suggest_mapping`. -/
def synonymsTable : List (String × List String) :=
  [("shortdescription", ["description", "name"]),
   ("description", ["description", "body", "readme"]),
   ("state", ["state", "status", "visibility"]),
   ("priority", ["priority"]),
   ("assignmentgroup", ["owner_login", "owner", "organization"]),
   ("assignedto", ["owner_login", "owner"]),
   ("summary", ["description", "name"])]

/-- `synonyms.get(norm, [])`. -/
def synCandidates (norm : String) : List String :=
  ((synonymsTable.find? (fun kv => kv.1 = norm)).map (·.2)).getD []

/-- `_FUZZY_THRESHOLD = 0.78`. -/
def FUZZY_THRESHOLD : ℚ := 39 / 50

/-- One provenance note of the matcher. -/
inductive MatchNote
  | exact (sn gh : String)
  | viaSynonym (sn gh : String)
  | viaFuzzy (sn gh : String) (score : ℚ)
deriving DecidableEq

/-- The running best of the `_fuzzy_match` loop (strict improvement keeps
the first-seen maximum, like the Python `score > best[1]`). -/
def fuzzyBest (norm_sn : String) (gh_norm_map : List (String × String)) :
    Option String × ℚ :=
  gh_norm_map.foldl
    (fun best kv =>
      if best.2 < ratioS norm_sn kv.1 then (some kv.2, ratioS norm_sn kv.1)
      else best)
    ((none : Option String), (0 : ℚ))

/-- `MappingService._fuzzy_match`. -/
def fuzzy_match (norm_sn : String) (gh_norm_map : List (String × String)) :
    Option String × ℚ :=
  if pyTruthyOpt (fuzzyBest norm_sn gh_norm_map).1 = true ∧
      FUZZY_THRESHOLD ≤ (fuzzyBest norm_sn gh_norm_map).2 then
    fuzzyBest norm_sn gh_norm_map
  else (none, 0)

/-- The maximal similarity score over the repository fields (the spec-side
quantity the acceptance test of `C6` is stated against). -/
def maxFuzzyScore (norm_sn : String) (gh_norm_map : List (String × String)) :
    ℚ :=
  gh_norm_map.foldl (fun q kv => max q (ratioS norm_sn kv.1)) 0

/-- The synonym loop: first candidate whose normalized form is a key. -/
def synLoop (gh_norm_map : List (String × String)) (sn : String) :
    List String → Option String × List MatchNote
  | [] => (none, [])
  | c :: cs =>
    match lookupA gh_norm_map (normalize_name c) with
    | some g => (some g, [MatchNote.viaSynonym sn g])
    | none => synLoop gh_norm_map sn cs

/-- The exact-match / synonym part of the loop body (the value of `chosen`
before the fuzzy fallback). -/
def chooseFirst (gh_norm_map : List (String × String)) (sn : String) :
    Option String × List MatchNote :=
  match lookupA gh_norm_map (normalize_name sn) with
  | some g => (some g, [MatchNote.exact sn g])
  | none => synLoop gh_norm_map sn (synCandidates (normalize_name sn))

/-- The per-table-field body of the `for sn in sn_fields` loop: the final
`chosen` value and the notes this field contributes (`if not chosen:` runs
the fuzzy fallback). -/
def chooseStep (gh_norm_map : List (String × String)) (sn : String) :
    Option String × List MatchNote :=
  if pyTruthyOpt (chooseFirst gh_norm_map sn).1 = true then
    chooseFirst gh_norm_map sn
  else
    match fuzzy_match (normalize_name sn) gh_norm_map with
    | (some g, score) =>
      (some g, (chooseFirst gh_norm_map sn).2 ++ [MatchNote.viaFuzzy sn g score])
    | (none, _) => (none, (chooseFirst gh_norm_map sn).2)

/-- One iteration of the `for sn in sn_fields` loop: record the chosen
field (`if chosen: mapping[sn] = chosen`) and append the notes. -/
def suggestStep (gmap : List (String × String))
    (acc : List (String × String) × List MatchNote) (sn : String) :
    List (String × String) × List MatchNote :=
  (match (chooseStep gmap sn).1 with
   | some g => if g = "" then acc.1 else insertA acc.1 sn g
   | none => acc.1,
   acc.2 ++ (chooseStep gmap sn).2)

/-- `MappingService._suggest_mapping`. -/
def suggest_mapping (sn_fields gh_fields : List String) :
    List (String × String) × List MatchNote :=
  sn_fields.foldl (suggestStep (ghNormMap gh_fields)) ([], [])

/-! ## Service level -/

/-- Failures surfaced by the service: FastAPI `HTTPException(code, detail)`
or a raw Python `TypeError`. -/
inductive PyErr
  | http (code : Nat) (detail : String)
  | typeErr (msg : String)
deriving DecidableEq

/-- `MappingService._DIRECTIONS`. -/
def DIRECTIONS : List String :=
  ["github_to_servicenow", "servicenow_to_github", "bidirectional"]

def directionErrMsg : String :=
  "direction must be github_to_servicenow, servicenow_to_github, or bidirectional"

/-- `MappingService._normalize_direction`:
`d = (direction or "").strip().lower()`, then membership in the set. -/
def normalize_direction (direction : String) : Except PyErr String :=
  let d := pyLower (pyStrip direction)
  if d ∈ DIRECTIONS then .ok d else .error (.http 400 directionErrMsg)

/-! ### The ORM `Mapping` model (`impl/db/models.py`, lines 86-99)

The declarative `Mapping` class maps exactly these attributes (five columns,
one relationship).  `impl/db/session.py` adds raw `direction` and
`field_mapping_json` columns to the SQLite table via `ALTER TABLE`, but the
Python class itself never declares them, and SQLAlchemy's declarative
constructor raises `TypeError` for any keyword that is not an attribute of
the class (`hasattr` check in `_declarative_constructor`). -/

/-- Constructor-settable attributes of the `Mapping` ORM class. -/
def mappingModelAttrs : List String :=
  ["id", "user_id", "github_repo_full_name", "servicenow_table", "label",
   "created_at", "user"]

/-- Keyword names passed by `MappingService.create` to `Mapping(...)`. -/
def createKwargNames : List String :=
  ["user_id", "github_repo_full_name", "servicenow_table", "label",
   "direction", "field_mapping_json"]

/-- SQLAlchemy declarative constructor: reject the first unknown keyword. -/
def mappingCtorCheck (kwargs : List String) : Except PyErr Unit :=
  match kwargs.find? (fun k => ¬ k ∈ mappingModelAttrs) with
  | some k =>
    .error (.typeErr ("\x27" ++ k ++ "\x27 is an invalid keyword argument for Mapping"))
  | none => .ok ()

structure CreateMappingRequest where
  github_repo_full_name : String
  servicenow_table : String
  label : String
  direction : String
  field_mapping : Option (List (String × String))

def repoShapeErrMsg : String := "github_repo_full_name must be like owner/repo"

/-- `MappingService.create` up to the `Mapping(...)` constructor call.  The
persistence tail (`db.add`/`commit`/conflict handling/`MappingResponse`) is
unreachable because the constructor check always fails (see `C1`), so the
`.ok` branch is a placeholder that the theorems show is never taken. -/
def MappingService_create (req : CreateMappingRequest) : Except PyErr Unit :=
  if ('/' : Char) ∈ req.github_repo_full_name.data then
    match normalize_direction req.direction with
    | .error e => .error e
    | .ok direction =>
      let field_mapping := req.field_mapping.getD []
      match basic_validate_mapping field_mapping direction with
      | some detail => .error (.http 400 detail)
      | none => mappingCtorCheck createKwargNames
  else .error (.http 400 repoShapeErrMsg)

/-! ### `MappingService.validate` — pure post-fetch computation -/

/-- One raw ServiceNow dictionary entry as the core reads it:
`f.get("element")` (string or absent) and the truthiness of
`f.get("mandatory")`. -/
structure SnFieldRaw where
  element : Option String
  mandatory : Bool
deriving DecidableEq

/-- Python `str(x)` for `x : str | None`. -/
def strOfOpt : Option String → String
  | none => "None"
  | some s => s

/-- `[str(f.get("element")) for f in sn_fields_raw if f.get("element")]`. -/
def sn_field_names (raws : List SnFieldRaw) : List String :=
  (raws.filter (fun f => pyTruthyOpt f.element)).map (fun f => strOfOpt f.element)

/-- `[str(f.get("element")) for f in sn_fields_raw if f.get("mandatory")]`. -/
def sn_required_names (raws : List SnFieldRaw) : List String :=
  (raws.filter (fun f => f.mandatory)).map (fun f => strOfOpt f.element)

def missingRequiredHead : String := "Missing required ServiceNow fields: "

/-- The response of `MappingService.validate` (notes kept apart from the
string warnings; the source appends rendered notes after the warnings). -/
structure MappingValidationResponse where
  ok : Bool
  suggested_mapping : List (String × String)
  missing_servicenow_fields : List String
  missing_github_fields : List String
  warnings : List String
  notes : List MatchNote
deriving DecidableEq

/-- The pure tail of `MappingService.validate`, from `gh_fields = ...` to the
response (everything after the remote fetches succeeded). -/
def validate_core (mapping : List (String × String)) (raws : List SnFieldRaw)
    (gh_fields : List String) (direction : String) :
    MappingValidationResponse :=
  let sn_fields := sn_field_names raws
  let sn_required := sn_required_names raws
  let missing_sn := (mapping.map Prod.fst).filter (fun k => ¬ k ∈ sn_fields)
  let missing_gh := (mapping.map Prod.snd).filter (fun v => ¬ v ∈ gh_fields)
  let missing_required := sn_required.filter (fun f => ¬ f ∈ mapping.map Prod.fst)
  let warnings :=
    if missing_required ≠ [] ∧
        (direction = "github_to_servicenow" ∨ direction = "bidirectional") then
      [missingRequiredHead ++ joinSep ", " missing_required]
    else []
  let sg := suggest_mapping sn_fields gh_fields
  { ok := missing_sn.isEmpty && missing_gh.isEmpty
    suggested_mapping := sg.1
    missing_servicenow_fields := missing_sn
    missing_github_fields := missing_gh
    warnings := warnings
    notes := sg.2 }

/-! ### The fetch `try/except` block of `validate` and `auto_map`

Both methods run the same block: fetch repo then table fields, then in one
commit set `last_tested_at` / `last_test_ok` / `last_test_message` on both
integration rows — `True/"OK"` on success, `False/str(e)[:500]` on any
exception, re-raising the exception wrapped in a 400 after the commit.  The
commit updating the two rows is modelled as the atomic simultaneous update
below. -/

structure IntegrationRow where
  last_tested_at : Option Nat
  last_test_ok : Option Bool
  last_test_message : Option String
deriving DecidableEq

/-- The shared try/except body, parametrised by the wrapper that builds the
re-raised detail (`"Validation failed: "` vs `"Auto mapping failed: "`). -/
def record_fetch_outcome {α : Type} (now : Nat) (gh_row sn_row : IntegrationRow)
    (outcome : Except String α) (wrapped : String → String) :
    IntegrationRow × IntegrationRow × Except PyErr α :=
  match outcome with
  | .ok v =>
    ({ gh_row with
        last_tested_at := some now
        last_test_ok := some true
        last_test_message := some "OK" },
     { sn_row with
        last_tested_at := some now
        last_test_ok := some true
        last_test_message := some "OK" },
     .ok v)
  | .error e =>
    ({ gh_row with
        last_tested_at := some now
        last_test_ok := some false
        last_test_message := some (strTake 500 e) },
     { sn_row with
        last_tested_at := some now
        last_test_ok := some false
        last_test_message := some (strTake 500 e) },
     .error (.http 400 (wrapped e)))

/-- The `validate` instance of the block. -/
def validate_fetch_phase {α : Type} (now : Nat) (gh_row sn_row : IntegrationRow)
    (outcome : Except String α) :
    IntegrationRow × IntegrationRow × Except PyErr α :=
  record_fetch_outcome now gh_row sn_row outcome
    (fun e => "Validation failed: " ++ e)

/-- The `auto_map` instance of the block. -/
def auto_map_fetch_phase {α : Type} (now : Nat) (gh_row sn_row : IntegrationRow)
    (outcome : Except String α) :
    IntegrationRow × IntegrationRow × Except PyErr α :=
  record_fetch_outcome now gh_row sn_row outcome
    (fun e => "Auto mapping failed: " ++ e)

/-! # Lemmas -/

/-! ## Normalization -/

theorem toNat_ofNat_valid {n : Nat} (h : n.isValidChar) :
    (Char.ofNat n).toNat = n := by
  rw [Char.ofNat, dif_pos h]
  rfl

theorem toLower_idem (c : Char) : c.toLower.toLower = c.toLower := by
  by_cases h : c.toNat ≥ 65 ∧ c.toNat ≤ 90
  · have h1 : c.toLower = Char.ofNat (c.toNat + 32) := by
      unfold Char.toLower
      rw [if_pos h]
    have hv : (Char.ofNat (c.toNat + 32)).toNat = c.toNat + 32 :=
      toNat_ofNat_valid (Or.inl (by omega))
    rw [h1]
    unfold Char.toLower
    rw [if_neg (by rw [hv]; omega)]
  · have h1 : c.toLower = c := by
      unfold Char.toLower
      rw [if_neg h]
    rw [h1, h1]

theorem normChars_idem (l : List Char) :
    normChars (normChars l) = normChars l := by
  have hmem : ∀ c ∈ normChars l, Char.isAlphanum c = true ∧ c.toLower = c := by
    intro c hc
    unfold normChars at hc
    obtain ⟨hcm, hcp⟩ := List.mem_filter.mp hc
    obtain ⟨d, _, rfl⟩ := List.mem_map.mp hcm
    exact ⟨hcp, toLower_idem d⟩
  show ((normChars l).map Char.toLower).filter Char.isAlphanum = normChars l
  rw [show (normChars l).map Char.toLower = (normChars l).map id from
      List.map_congr_left fun c hc => (hmem c hc).2,
    List.map_id,
    List.filter_eq_self.mpr fun c hc => (hmem c hc).1]

/-- `C8`: the normalization of `_normalize_name` is idempotent, and it
ignores case and every non-alphanumeric character:
`normalize("Short-Description ") == normalize("shortdescription")`. -/
theorem C8_normalize_idempotent :
    (∀ s : String, normalize_name (normalize_name s) = normalize_name s) ∧
    normalize_name "Short-Description " = normalize_name "shortdescription" ∧
    normalize_name "Short-Description " = "shortdescription" := by
  refine ⟨fun s => ?_, by decide, by decide⟩
  show (⟨normChars (normChars s.data)⟩ : String) = ⟨normChars s.data⟩
  rw [normChars_idem]

/-! ## Validator -/

theorem addSet_ne_nil (s : String) (l : List String) : addSet s l ≠ [] := by
  unfold addSet
  split
  · rename_i h
    intro hl
    rw [hl] at h
    exact absurd h (List.not_mem_nil s)
  · simp

/-- The `seen`/`duplicates` fold finds no duplicate exactly when the list so
far is duplicate-free and disjoint from `seen`. -/
theorem dupScan_aux :
    ∀ (l : List String) (seen dups : List String),
      (l.foldl
          (fun sd v => (addSet v sd.1, if v ∈ sd.1 then addSet v sd.2 else sd.2))
          (seen, dups)).2 = [] ↔
        dups = [] ∧ l.Nodup ∧ ∀ v ∈ l, v ∉ seen := by
  intro l
  induction l with
  | nil => simp
  | cons v l ih =>
    intro seen dups
    by_cases hv : v ∈ seen
    · rw [List.foldl_cons]
      simp only [if_pos hv, ih]
      constructor
      · rintro ⟨hd, -, -⟩
        exact absurd hd (addSet_ne_nil v dups)
      · rintro ⟨-, -, hall⟩
        exact absurd hv (hall v (List.mem_cons_self v l))
    · rw [List.foldl_cons]
      simp only [if_neg hv, ih]
      unfold addSet
      rw [if_neg hv]
      constructor
      · rintro ⟨hd, hn, hall⟩
        refine ⟨hd, List.nodup_cons.mpr ⟨fun hvl => ?_, hn⟩, fun x hx => ?_⟩
        · have := hall v hvl
          simp at this
        · rcases List.mem_cons.mp hx with rfl | hx
          · exact hv
          · intro hxs
            exact (hall x hx) (List.mem_append_left _ hxs)
      · rintro ⟨hd, hn, hall⟩
        obtain ⟨hvl, hn⟩ := List.nodup_cons.mp hn
        refine ⟨hd, hn, fun x hx hxm => ?_⟩
        rcases List.mem_append.mp hxm with hxs | hxv
        · exact (hall x (List.mem_cons_of_mem v hx)) hxs
        · rw [List.mem_singleton.mp hxv] at hx
          exact hvl hx

theorem dupScan_nil_iff (vals : List String) :
    (dupScan vals).2 = [] ↔ vals.Nodup := by
  unfold dupScan
  rw [dupScan_aux]
  simp

/-- `C3`: the injectivity rule is enforced exactly for `bidirectional`.  The
mapping `{"a": "x", "b": "x"}` fails under `bidirectional` with a message
that names the duplicated target `x`, passes under both one-directional
tags (the spec calls these `repo_to_table` / `table_to_repo`, the code
`github_to_servicenow` / `servicenow_to_github`), and in general, for a
structurally clean mapping, validation succeeds iff the values are
duplicate-free whenever the direction is `bidirectional`. -/
theorem C3_injectivity_only_bidirectional :
    basic_validate_mapping [("a", "x"), ("b", "x")] "bidirectional" =
      some (dupErrHead ++ "x") ∧
    basic_validate_mapping [("a", "x"), ("b", "x")] "github_to_servicenow" =
      none ∧
    basic_validate_mapping [("a", "x"), ("b", "x")] "servicenow_to_github" =
      none ∧
    (∀ (m : List (String × String)) (d : String),
      structuralErrors m = [] →
      (basic_validate_mapping m d = none ↔
        (d = "bidirectional" → (m.map Prod.snd).Nodup))) := by
  refine ⟨by decide, by decide, by decide, fun m d hs => ?_⟩
  unfold basic_validate_mapping validatorErrors
  rw [hs, List.nil_append]
  unfold dupErrors
  by_cases hd : d = "bidirectional"
  · rw [if_pos hd]
    by_cases hdup : (dupScan (m.map Prod.snd)).2 = []
    · rw [if_pos hdup]
      simp [hd, (dupScan_nil_iff _).mp hdup]
    · rw [if_neg hdup]
      simp only [List.cons_ne_self]
      constructor
      · intro h
        simp at h
      · intro h
        exact absurd ((dupScan_nil_iff _).mpr (h hd)) hdup
  · rw [if_neg hd]
    simp [hd]

/-- Witness for the general clause of `C3`. -/
theorem C3_witness :
    basic_validate_mapping [("a", "x"), ("b", "y")] "bidirectional" = none :=
  (C3_injectivity_only_bidirectional.2.2.2 [("a", "x"), ("b", "y")]
    "bidirectional" (by decide)).mpr (fun _ => by decide)

/-- `C4`: the validator collects every structural violation: the mapping
`{"": "y", "a": ""}` yields, under every direction, exactly the two
distinct messages (one for the blank key, one for the blank value), and in
general every blank-after-trim key or value contributes its message to the
violation list. -/
theorem C4_validator_enumerates_all_violations :
    (∀ d : String,
      validatorErrors [("", "y"), ("a", "")] d = [keyErrMsg, valErrMsg "a"] ∧
      keyErrMsg ≠ valErrMsg "a" ∧
      basic_validate_mapping [("", "y"), ("a", "")] d =
        some (keyErrMsg ++ "; " ++ valErrMsg "a")) ∧
    (∀ (m : List (String × String)) (d : String) (kv : String × String),
      kv ∈ m → stripChars kv.1.data = [] → keyErrMsg ∈ validatorErrors m d) ∧
    (∀ (m : List (String × String)) (d : String) (kv : String × String),
      kv ∈ m → stripChars kv.2.data = [] →
        valErrMsg kv.1 ∈ validatorErrors m d) := by
  refine ⟨fun d => ?_, fun m d kv hm hk => ?_, fun m d kv hm hv => ?_⟩
  · have hs : structuralErrors [("", "y"), ("a", "")] =
        [keyErrMsg, valErrMsg "a"] := by decide
    have hdup : dupErrors [("", "y"), ("a", "")] d = [] := by
      unfold dupErrors
      by_cases hd : d = "bidirectional"
      · rw [if_pos hd, if_pos (by decide)]
      · rw [if_neg hd]
    refine ⟨?_, by decide, ?_⟩
    · unfold validatorErrors
      rw [hs, hdup, List.append_nil]
    · unfold basic_validate_mapping validatorErrors
      rw [hs, hdup, List.append_nil]
      rw [if_neg (by decide)]
      rfl
  · apply List.mem_append_left
    unfold structuralErrors
    refine List.mem_flatMap.mpr ⟨kv, hm, ?_⟩
    unfold pairErrors
    rw [if_pos hk]
    exact List.mem_append_left _ (List.mem_singleton.mpr rfl)
  · apply List.mem_append_left
    unfold structuralErrors
    refine List.mem_flatMap.mpr ⟨kv, hm, ?_⟩
    unfold pairErrors
    rw [if_pos hv]
    exact List.mem_append_right _ (List.mem_singleton.mpr rfl)

/-- Witness for `C4` at concrete inputs. -/
theorem C4_witness :
    validatorErrors [("", "y"), ("a", "")] "bidirectional" =
      [keyErrMsg, valErrMsg "a"] ∧
    keyErrMsg ∈ validatorErrors [(" ", "x")] "github_to_servicenow" :=
  ⟨(C4_validator_enumerates_all_violations.1 "bidirectional").1,
   C4_validator_enumerates_all_violations.2.1 [(" ", "x")]
     "github_to_servicenow" (" ", "x") (by decide) (by decide)⟩

/-! ## `validate` result -/

/-- `C2`: the `ok` flag of a successful `validate` call is true exactly when
every mapping key occurs in the live ServiceNow field list and every mapping
value occurs in the live GitHub field list; the two missing-field lists are
exactly those filters; and `ok` is unchanged by anything that only affects
the warnings (the `mandatory` flags and the direction). -/
theorem C2_validate_ok_iff_no_missing :
    ∀ (mapping : List (String × String)) (raws : List SnFieldRaw)
      (gh_fields : List String) (direction : String),
      ((validate_core mapping raws gh_fields direction).ok = true ↔
        ((∀ k ∈ mapping.map Prod.fst, k ∈ sn_field_names raws) ∧
         (∀ v ∈ mapping.map Prod.snd, v ∈ gh_fields))) ∧
      (validate_core mapping raws gh_fields direction).missing_servicenow_fields
        = (mapping.map Prod.fst).filter
            (fun k => ¬ k ∈ sn_field_names raws) ∧
      (validate_core mapping raws gh_fields direction).missing_github_fields
        = (mapping.map Prod.snd).filter (fun v => ¬ v ∈ gh_fields) ∧
      (∀ (raws2 : List SnFieldRaw) (d2 : String),
        sn_field_names raws2 = sn_field_names raws →
        (validate_core mapping raws2 gh_fields d2).ok =
          (validate_core mapping raws gh_fields direction).ok) := by
  intro mapping raws gh_fields direction
  refine ⟨?_, rfl, rfl, fun raws2 d2 h2 => ?_⟩
  · have hok : (validate_core mapping raws gh_fields direction).ok =
        (((mapping.map Prod.fst).filter
            (fun k => ¬ k ∈ sn_field_names raws)).isEmpty
          && ((mapping.map Prod.snd).filter
            (fun v => ¬ v ∈ gh_fields)).isEmpty) := rfl
    rw [hok, Bool.and_eq_true, List.isEmpty_iff, List.isEmpty_iff,
      List.filter_eq_nil_iff, List.filter_eq_nil_iff]
    simp
  · have hok2 : (validate_core mapping raws2 gh_fields d2).ok =
        (((mapping.map Prod.fst).filter
            (fun k => ¬ k ∈ sn_field_names raws2)).isEmpty
          && ((mapping.map Prod.snd).filter
            (fun v => ¬ v ∈ gh_fields)).isEmpty) := rfl
    rw [hok2, h2]
    rfl

/-- Witness for `C2` at a concrete input. -/
theorem C2_witness :
    (validate_core [("priority", "language")]
      [⟨some "priority", true⟩, ⟨some "state", true⟩]
      ["language", "name"] "bidirectional").ok = true :=
  ((C2_validate_ok_iff_no_missing [("priority", "language")]
      [⟨some "priority", true⟩, ⟨some "state", true⟩]
      ["language", "name"] "bidirectional").1).mpr (by decide)

/-! ## Fetch status recording -/

/-- `C9`: for both `validate` and `auto_map`, a failed fetch updates both
credential rows in the same atomic commit to a failed status whose message
is the exception text truncated to at most 500 characters, before the
wrapped error is re-raised; a successful fetch updates both rows to a
successful status. -/
theorem C9_fetch_updates_both_rows :
    ∀ {α : Type} (now : Nat) (gh sn : IntegrationRow)
      (outcome : Except String α),
      (∀ e, outcome = .error e →
        (validate_fetch_phase now gh sn outcome).1.last_test_ok = some false ∧
        (validate_fetch_phase now gh sn outcome).2.1.last_test_ok =
          some false ∧
        (validate_fetch_phase now gh sn outcome).1.last_test_message =
          some (strTake 500 e) ∧
        (validate_fetch_phase now gh sn outcome).2.1.last_test_message =
          some (strTake 500 e) ∧
        (strTake 500 e).length ≤ 500 ∧
        (validate_fetch_phase now gh sn outcome).2.2 =
          .error (.http 400 ("Validation failed: " ++ e)) ∧
        (auto_map_fetch_phase now gh sn outcome).1.last_test_ok =
          some false ∧
        (auto_map_fetch_phase now gh sn outcome).2.1.last_test_ok =
          some false ∧
        (auto_map_fetch_phase now gh sn outcome).2.2 =
          .error (.http 400 ("Auto mapping failed: " ++ e))) ∧
      (∀ v, outcome = .ok v →
        (validate_fetch_phase now gh sn outcome).1.last_test_ok = some true ∧
        (validate_fetch_phase now gh sn outcome).2.1.last_test_ok =
          some true ∧
        (validate_fetch_phase now gh sn outcome).1.last_test_message =
          some "OK" ∧
        (validate_fetch_phase now gh sn outcome).2.1.last_test_message =
          some "OK" ∧
        (validate_fetch_phase now gh sn outcome).2.2 = .ok v ∧
        (auto_map_fetch_phase now gh sn outcome).1.last_test_ok =
          some true ∧
        (auto_map_fetch_phase now gh sn outcome).2.1.last_test_ok =
          some true) := by
  intro α now gh sn outcome
  constructor
  · rintro e rfl
    refine ⟨rfl, rfl, rfl, rfl, ?_, rfl, rfl, rfl, rfl⟩
    show (e.data.take 500).length ≤ 500
    rw [List.length_take]
    omega
  · rintro v rfl
    exact ⟨rfl, rfl, rfl, rfl, rfl, rfl, rfl⟩

/-- Witness for `C9` at a concrete failing and a concrete succeeding call. -/
theorem C9_witness :
    (validate_fetch_phase 7 ⟨none, none, none⟩ ⟨none, none, none⟩
      (.error "boom" : Except String Unit)).1.last_test_ok = some false ∧
    (validate_fetch_phase 7 ⟨none, none, none⟩ ⟨none, none, none⟩
      (.ok () : Except String Unit)).2.1.last_test_ok = some true :=
  ⟨((C9_fetch_updates_both_rows 7 ⟨none, none, none⟩ ⟨none, none, none⟩
      (.error "boom")).1 "boom" rfl).1,
   ((C9_fetch_updates_both_rows 7 ⟨none, none, none⟩ ⟨none, none, none⟩
      (.ok ())).2 () rfl).2.1⟩

/-! ## `create` and the `Mapping` ORM model -/

/-- `C1` (code bug): the `Mapping` ORM class declares neither a `direction`
nor a `field_mapping_json` attribute (the columns exist only as raw
`ALTER TABLE` columns added by `init_db`), while `MappingService.create`
passes both as constructor keywords.  Hence every `create` call that passes
the documented preconditions (repository name contains `/`, direction
normalizes to one of the three tags, the field mapping validates) raises
`TypeError: 'direction' is an invalid keyword argument for Mapping` instead
of persisting and returning a mapping. -/
theorem C1_create_always_raises_typeerror :
    (¬ "direction" ∈ mappingModelAttrs) ∧
    (¬ "field_mapping_json" ∈ mappingModelAttrs) ∧
    "direction" ∈ createKwargNames ∧
    "field_mapping_json" ∈ createKwargNames ∧
    ∀ (req : CreateMappingRequest) (d : String),
      ('/' : Char) ∈ req.github_repo_full_name.data →
      normalize_direction req.direction = .ok d →
      basic_validate_mapping (req.field_mapping.getD []) d = none →
      MappingService_create req =
        .error (.typeErr
          "\x27direction\x27 is an invalid keyword argument for Mapping") := by
  refine ⟨by decide, by decide, by decide, by decide,
    fun req d hslash hdir hval => ?_⟩
  unfold MappingService_create
  rw [if_pos hslash, hdir]
  show (match basic_validate_mapping (req.field_mapping.getD []) d with
    | some detail => Except.error (PyErr.http 400 detail)
    | none => mappingCtorCheck createKwargNames) = _
  rw [hval]
  rfl

/-- Witness for `C1`: a fully well-formed create request still raises. -/
theorem C1_witness :
    MappingService_create
      ⟨"octo/hello", "incident", "default", "bidirectional",
        some [("short_description", "description")]⟩ =
      .error (.typeErr
        "\x27direction\x27 is an invalid keyword argument for Mapping") :=
  C1_create_always_raises_typeerror.2.2.2.2
    ⟨"octo/hello", "incident", "default", "bidirectional",
      some [("short_description", "description")]⟩
    "bidirectional" (by decide) rfl (by decide)

/-! ## `SequenceMatcher` lemmas -/

theorem runLen_le_left : ∀ xs ys : List Char, runLen xs ys ≤ xs.length := by
  intro xs
  induction xs with
  | nil => intro ys; cases ys <;> simp [runLen]
  | cons x xs ih =>
    intro ys
    cases ys with
    | nil => simp [runLen]
    | cons y ys =>
      unfold runLen
      split
      · have := ih ys
        simp only [List.length_cons]
        omega
      · simp

theorem runLen_le_right : ∀ xs ys : List Char, runLen xs ys ≤ ys.length := by
  intro xs
  induction xs with
  | nil => intro ys; cases ys <;> simp [runLen]
  | cons x xs ih =>
    intro ys
    cases ys with
    | nil => simp [runLen]
    | cons y ys =>
      unfold runLen
      split
      · have := ih ys
        simp only [List.length_cons]
        omega
      · simp

theorem runLen_take_eq :
    ∀ xs ys : List Char, xs.take (runLen xs ys) = ys.take (runLen xs ys) := by
  intro xs
  induction xs with
  | nil => intro ys; cases ys <;> simp [runLen]
  | cons x xs ih =>
    intro ys
    cases ys with
    | nil => simp [runLen]
    | cons y ys =>
      unfold runLen
      split
      · rename_i heq
        rw [List.take_succ_cons, List.take_succ_cons, heq, ih ys]
      · simp

theorem runLen_self : ∀ xs : List Char, runLen xs xs = xs.length := by
  intro xs
  induction xs with
  | nil => simp [runLen]
  | cons x xs ih => simp [runLen, ih]

/-- The invariant of the scan state: either still the initial value, or a
genuine in-range block whose length is the common run at its position. -/
def LmInv (a b : List Char) (t : Nat × Nat × Nat) : Prop :=
  t = (0, 0, 0) ∨
    (t.1 < a.length ∧ t.2.1 < b.length ∧ 0 < t.2.2 ∧
      t.2.2 = runLen (a.drop t.1) (b.drop t.2.1))

theorem lmStep_snd_le (a b : List Char) (i : Nat) (best : Nat × Nat × Nat)
    (j : Nat) : best.2.2 ≤ (lmStep a b i best j).2.2 := by
  unfold lmStep
  split
  · rename_i h
    exact Nat.le_of_lt h
  · exact Nat.le_refl _

theorem foldl_lmStep_mono (a b : List Char) (i : Nat) :
    ∀ (l : List Nat) (best : Nat × Nat × Nat),
      best.2.2 ≤ (l.foldl (lmStep a b i) best).2.2 := by
  intro l
  induction l with
  | nil => intro best; exact Nat.le_refl _
  | cons x l ih =>
    intro best
    exact Nat.le_trans (lmStep_snd_le a b i best x) (ih _)

theorem foldl_lmStep_ge (a b : List Char) (i : Nat) :
    ∀ (l : List Nat) (best : Nat × Nat × Nat) (j : Nat), j ∈ l →
      runLen (a.drop i) (b.drop j) ≤ (l.foldl (lmStep a b i) best).2.2 := by
  intro l
  induction l with
  | nil => intro best j hj; exact absurd hj (List.not_mem_nil j)
  | cons x l ih =>
    intro best j hj
    rcases List.mem_cons.mp hj with rfl | hj
    · refine Nat.le_trans ?_ (foldl_lmStep_mono a b i l (lmStep a b i best j))
      unfold lmStep
      split
      · exact Nat.le_refl _
      · rename_i h
        omega
    · exact ih _ j hj

theorem lmStep_inv (a b : List Char) {i j : Nat} (best : Nat × Nat × Nat)
    (hi : i < a.length) (hj : j < b.length) (h : LmInv a b best) :
    LmInv a b (lmStep a b i best j) := by
  unfold lmStep
  split
  · rename_i hlt
    exact Or.inr ⟨hi, hj, Nat.lt_of_le_of_lt (Nat.zero_le _) hlt, rfl⟩
  · exact h

theorem foldl_lmStep_inv (a b : List Char) {i : Nat} (hi : i < a.length) :
    ∀ (l : List Nat) (best : Nat × Nat × Nat), (∀ j ∈ l, j < b.length) →
      LmInv a b best → LmInv a b (l.foldl (lmStep a b i) best) := by
  intro l
  induction l with
  | nil => intro best _ h; exact h
  | cons x l ih =>
    intro best hl h
    exact ih _ (fun j hj => hl j (List.mem_cons_of_mem x hj))
      (lmStep_inv a b best hi (hl x (List.mem_cons_self x l)) h)

theorem lmOuter_snd_le (a b : List Char) (best : Nat × Nat × Nat) (i : Nat) :
    best.2.2 ≤ (lmOuter a b best i).2.2 :=
  foldl_lmStep_mono a b i _ best

theorem foldl_lmOuter_mono (a b : List Char) :
    ∀ (l : List Nat) (best : Nat × Nat × Nat),
      best.2.2 ≤ (l.foldl (lmOuter a b) best).2.2 := by
  intro l
  induction l with
  | nil => intro best; exact Nat.le_refl _
  | cons x l ih =>
    intro best
    exact Nat.le_trans (lmOuter_snd_le a b best x) (ih _)

theorem foldl_lmOuter_ge (a b : List Char) :
    ∀ (l : List Nat) (best : Nat × Nat × Nat) (i j : Nat), i ∈ l →
      j < b.length →
      runLen (a.drop i) (b.drop j) ≤ (l.foldl (lmOuter a b) best).2.2 := by
  intro l
  induction l with
  | nil => intro best i j hi _; exact absurd hi (List.not_mem_nil i)
  | cons x l ih =>
    intro best i j hi hj
    rcases List.mem_cons.mp hi with rfl | hi
    · refine Nat.le_trans ?_ (foldl_lmOuter_mono a b l (lmOuter a b best i))
      exact foldl_lmStep_ge a b i _ best j (List.mem_range.mpr hj)
    · exact ih _ i j hi hj

theorem lmFold_ge (a b : List Char) {i j : Nat} (hi : i < a.length)
    (hj : j < b.length) :
    runLen (a.drop i) (b.drop j) ≤ (lmFold a b).2.2 :=
  foldl_lmOuter_ge a b _ _ i j (List.mem_range.mpr hi) hj

theorem lmOuter_inv (a b : List Char) (best : Nat × Nat × Nat) {i : Nat}
    (hi : i < a.length) (h : LmInv a b best) : LmInv a b (lmOuter a b best i) :=
  foldl_lmStep_inv a b hi _ best (fun j hj => List.mem_range.mp hj) h

theorem foldl_lmOuter_inv (a b : List Char) :
    ∀ (l : List Nat) (best : Nat × Nat × Nat), (∀ i ∈ l, i < a.length) →
      LmInv a b best → LmInv a b (l.foldl (lmOuter a b) best) := by
  intro l
  induction l with
  | nil => intro best _ h; exact h
  | cons x l ih =>
    intro best hl h
    exact ih _ (fun i hi => hl i (List.mem_cons_of_mem x hi))
      (lmOuter_inv a b best (hl x (List.mem_cons_self x l)) h)

theorem lmFold_inv (a b : List Char) : LmInv a b (lmFold a b) :=
  foldl_lmOuter_inv a b _ _ (fun i hi => List.mem_range.mp hi) (Or.inl rfl)

theorem totalMAux_nil_left : ∀ (fuel : Nat) (b : List Char),
    totalMAux fuel [] b = 0 := by
  intro fuel b
  cases fuel with
  | zero => rfl
  | succ fuel =>
    have h : lmFold [] b = (0, 0, 0) := rfl
    simp [totalMAux, h]

theorem totalMAux_le_left :
    ∀ (fuel : Nat) (a b : List Char), totalMAux fuel a b ≤ a.length := by
  intro fuel
  induction fuel with
  | zero => intro a b; simp [totalMAux]
  | succ fuel ih =>
    intro a b
    have hinv := lmFold_inv a b
    rcases hfold : lmFold a b with ⟨i, j, k⟩
    rw [hfold] at hinv
    simp only [totalMAux, hfold]
    split
    · rename_i hk
      rcases hinv with h0 | ⟨hi, hj, _, hkeq⟩
      · simp only [Prod.mk.injEq] at h0
        omega
      · simp only at hi hj hkeq
        have hkle : k ≤ a.length - i := by
          rw [hkeq]
          have := runLen_le_left (a.drop i) (b.drop j)
          rw [List.length_drop] at this
          exact this
        have h1 := ih (a.take i) (b.take j)
        have h2 := ih (a.drop (i + k)) (b.drop (j + k))
        rw [List.length_take] at h1
        rw [List.length_drop] at h2
        omega
    · exact Nat.zero_le _

theorem totalMAux_le_right :
    ∀ (fuel : Nat) (a b : List Char), totalMAux fuel a b ≤ b.length := by
  intro fuel
  induction fuel with
  | zero => intro a b; simp [totalMAux]
  | succ fuel ih =>
    intro a b
    have hinv := lmFold_inv a b
    rcases hfold : lmFold a b with ⟨i, j, k⟩
    rw [hfold] at hinv
    simp only [totalMAux, hfold]
    split
    · rename_i hk
      rcases hinv with h0 | ⟨hi, hj, _, hkeq⟩
      · simp only [Prod.mk.injEq] at h0
        omega
      · simp only at hi hj hkeq
        have hkle : k ≤ b.length - j := by
          rw [hkeq]
          have := runLen_le_right (a.drop i) (b.drop j)
          rw [List.length_drop] at this
          exact this
        have h1 := ih (a.take i) (b.take j)
        have h2 := ih (a.drop (i + k)) (b.drop (j + k))
        rw [List.length_take] at h1
        rw [List.length_drop] at h2
        omega
    · exact Nat.zero_le _

theorem totalMAux_fuel :
    ∀ (f1 f2 : Nat) (a b : List Char), a.length ≤ f1 → a.length ≤ f2 →
      totalMAux f1 a b = totalMAux f2 a b := by
  intro f1
  induction f1 with
  | zero =>
    intro f2 a b h1 _
    have ha : a = [] := List.eq_nil_of_length_eq_zero (by omega)
    subst ha
    rw [totalMAux_nil_left, totalMAux_nil_left]
  | succ f1 ih =>
    intro f2 a b h1 h2
    cases f2 with
    | zero =>
      have ha : a = [] := List.eq_nil_of_length_eq_zero (by omega)
      subst ha
      rw [totalMAux_nil_left, totalMAux_nil_left]
    | succ f2 =>
      have hinv := lmFold_inv a b
      rcases hfold : lmFold a b with ⟨i, j, k⟩
      rw [hfold] at hinv
      simp only [totalMAux, hfold]
      split
      · rcases hinv with h0 | ⟨hi, hj, _, hkeq⟩
        · rename_i hk
          simp only [Prod.mk.injEq] at h0
          omega
        · simp only at hi hj hkeq
          have hkle : k ≤ a.length - i := by
            rw [hkeq]
            have := runLen_le_left (a.drop i) (b.drop j)
            rw [List.length_drop] at this
            exact this
          rw [ih f2 (a.take i) (b.take j)
                (by rw [List.length_take]; omega)
                (by rw [List.length_take]; omega),
              ih f2 (a.drop (i + k)) (b.drop (j + k))
                (by rw [List.length_drop]; omega)
                (by rw [List.length_drop]; omega)]
      · rfl

theorem totalMAux_self :
    ∀ (fuel : Nat) (a : List Char), a.length ≤ fuel →
      totalMAux fuel a a = a.length := by
  intro fuel
  induction fuel with
  | zero =>
    intro a h
    have ha : a = [] := List.eq_nil_of_length_eq_zero (by omega)
    subst ha
    rfl
  | succ fuel ih =>
    intro a h
    cases ha : a with
    | nil => rw [totalMAux_nil_left]; rfl
    | cons c cs =>
      rw [← ha]
      have hlen : 0 < a.length := by rw [ha]; simp
      have hge := lmFold_ge a a hlen hlen
      rw [List.drop_zero, runLen_self] at hge
      have hinv := lmFold_inv a a
      rcases hfold : lmFold a a with ⟨i, j, k⟩
      rw [hfold] at hinv hge
      simp only at hge
      rcases hinv with h0 | ⟨hi, hj, hk, hkeq⟩
      · simp only [Prod.mk.injEq] at h0
        omega
      · simp only at hi hj hk hkeq
        have hki : k ≤ a.length - i := by
          rw [hkeq]
          have := runLen_le_left (a.drop i) (a.drop j)
          rw [List.length_drop] at this
          exact this
        have hkj : k ≤ a.length - j := by
          rw [hkeq]
          have := runLen_le_right (a.drop i) (a.drop j)
          rw [List.length_drop] at this
          exact this
        have hi0 : i = 0 := by omega
        have hj0 : j = 0 := by omega
        have hkl : k = a.length := by omega
        subst hi0 hj0
        simp only [totalMAux, hfold]
        rw [if_pos (by simpa using hk)]
        simp only [List.take_zero, Nat.zero_add, hkl, List.drop_length,
          totalMAux_nil_left]
        omega

theorem totalMAux_eq_of_lengths :
    ∀ (fuel : Nat) (a b : List Char), a.length ≤ fuel →
      totalMAux fuel a b = a.length → totalMAux fuel a b = b.length →
      a = b := by
  intro fuel
  induction fuel with
  | zero =>
    intro a b hf h1 h2
    have ha : a = [] := List.eq_nil_of_length_eq_zero (by omega)
    subst ha
    rw [totalMAux_nil_left] at h2
    rw [List.eq_nil_of_length_eq_zero h2.symm]
  | succ fuel ih =>
    intro a b hf h1 h2
    have hinv := lmFold_inv a b
    rcases hfold : lmFold a b with ⟨i, j, k⟩
    rw [hfold] at hinv
    simp only [totalMAux, hfold] at h1 h2
    by_cases hk : 0 < k
    · rcases hinv with h0 | ⟨hi, hj, _, hkeq⟩
      · simp only [Prod.mk.injEq] at h0
        omega
      · simp only at hi hj hkeq
        rw [if_pos (by simpa using hk)] at h1 h2
        have b1 := totalMAux_le_left fuel (a.take i) (b.take j)
        have b2 := totalMAux_le_right fuel (a.take i) (b.take j)
        have b3 := totalMAux_le_left fuel (a.drop (i + k)) (b.drop (j + k))
        have b4 := totalMAux_le_right fuel (a.drop (i + k)) (b.drop (j + k))
        rw [List.length_take] at b1 b2
        rw [List.length_drop] at b3 b4
        have bk1 : k ≤ a.length - i := by
          rw [hkeq]
          have := runLen_le_left (a.drop i) (b.drop j)
          rw [List.length_drop] at this
          exact this
        have bk2 : k ≤ b.length - j := by
          rw [hkeq]
          have := runLen_le_right (a.drop i) (b.drop j)
          rw [List.length_drop] at this
          exact this
        have hM1i : totalMAux fuel (a.take i) (b.take j) = i := by omega
        have hM1j : totalMAux fuel (a.take i) (b.take j) = j := by omega
        have hij : i = j := by omega
        have left_eq : a.take i = b.take j := by
          apply ih (a.take i) (b.take j)
          · rw [List.length_take]; omega
          · rw [hM1i, List.length_take]; omega
          · rw [hM1j, List.length_take]; omega
        have mid_eq : (a.drop i).take k = (b.drop j).take k := by
          rw [hkeq]
          exact runLen_take_eq (a.drop i) (b.drop j)
        have right_eq : a.drop (i + k) = b.drop (j + k) := by
          apply ih (a.drop (i + k)) (b.drop (j + k))
          · rw [List.length_drop]; omega
          · rw [List.length_drop]; omega
          · rw [List.length_drop]; omega
        calc a = a.take i ++ ((a.drop i).take k ++ (a.drop i).drop k) := by
              rw [List.take_append_drop, List.take_append_drop]
          _ = b.take j ++ ((b.drop j).take k ++ (b.drop j).drop k) := by
              rw [left_eq, mid_eq, List.drop_drop, List.drop_drop, right_eq]
          _ = b := by rw [List.take_append_drop, List.take_append_drop]
    · rw [if_neg (by simpa using hk)] at h1 h2
      rw [List.eq_nil_of_length_eq_zero h1.symm,
        List.eq_nil_of_length_eq_zero h2.symm]

theorem totalM_le_left (a b : List Char) : totalM a b ≤ a.length :=
  totalMAux_le_left _ a b

theorem totalM_le_right (a b : List Char) : totalM a b ≤ b.length :=
  totalMAux_le_right _ a b

theorem totalM_self (a : List Char) : totalM a a = a.length :=
  totalMAux_self _ a (Nat.le_refl _)

theorem totalM_full_eq {a b : List Char} (h1 : totalM a b = a.length)
    (h2 : totalM a b = b.length) : a = b :=
  totalMAux_eq_of_lengths _ a b (Nat.le_refl _) h1 h2

/-! ## Ratio lemmas -/

theorem ratioQ_nonneg (a b : List Char) : 0 ≤ ratioQ a b := by
  unfold ratioQ
  split
  · norm_num
  · positivity

theorem ratioQ_le_one (a b : List Char) : ratioQ a b ≤ 1 := by
  unfold ratioQ
  split
  · norm_num
  · rename_i h
    rw [div_le_one (by exact_mod_cast Nat.pos_of_ne_zero h)]
    have h1 := totalM_le_left a b
    have h2 := totalM_le_right a b
    have : 2 * totalM a b ≤ a.length + b.length := by omega
    exact_mod_cast this

theorem ratioQ_eq_one_iff (a b : List Char) : ratioQ a b = 1 ↔ a = b := by
  unfold ratioQ
  split
  · rename_i h
    have ha : a = [] := List.eq_nil_of_length_eq_zero (by omega)
    have hb : b = [] := List.eq_nil_of_length_eq_zero (by omega)
    subst ha hb
    simp
  · rename_i h
    have hpos : (0 : ℚ) < (a.length : ℚ) + (b.length : ℚ) := by
      exact_mod_cast Nat.pos_of_ne_zero h
    rw [div_eq_one_iff_eq (ne_of_gt hpos)]
    constructor
    · intro heq
      have heqn : 2 * totalM a b = a.length + b.length := by exact_mod_cast heq
      have h1 := totalM_le_left a b
      have h2 := totalM_le_right a b
      exact totalM_full_eq (by omega) (by omega)
    · rintro rfl
      rw [totalM_self]
      ring

/-- `C7` (amended): the similarity has range `0..1` and is `1.0` exactly on
identical strings; symmetry fails (see `C7_not_symmetric`). -/
theorem C7_ratio_range_and_identity :
    ∀ a b : List Char,
      0 ≤ ratioQ a b ∧ ratioQ a b ≤ 1 ∧ (ratioQ a b = 1 ↔ a = b) :=
  fun a b => ⟨ratioQ_nonneg a b, ratioQ_le_one a b, ratioQ_eq_one_iff a b⟩

/-- `C7` counterexample: the `SequenceMatcher` ratio is not symmetric:
`ratio("aba", "bca") = 1/3` while `ratio("bca", "aba") = 2/3`. -/
theorem C7_not_symmetric :
    ratioS "aba" "bca" = 1 / 3 ∧ ratioS "bca" "aba" = 2 / 3 ∧
    ratioS "aba" "bca" ≠ ratioS "bca" "aba" := by
  have h1 : totalM "aba".data "bca".data = 1 := by decide
  have h2 : totalM "bca".data "aba".data = 2 := by decide
  have l1 : ("aba".data.length) = 3 := by decide
  have l2 : ("bca".data.length) = 3 := by decide
  have e1 : ratioS "aba" "bca" = 1 / 3 := by
    unfold ratioS ratioQ
    rw [l1, l2, h1]
    norm_num
  have e2 : ratioS "bca" "aba" = 2 / 3 := by
    unfold ratioS ratioQ
    rw [l1, l2, h2]
    norm_num
  refine ⟨e1, e2, ?_⟩
  rw [e1, e2]
  norm_num

/-! ## Ratio of a shared prefix with disjoint tails

Used to exhibit a fuzzy pair whose similarity is exactly the `0.78`
threshold (the 50×50 scan is far too deep for kernel evaluation, so the
value is derived from the block structure instead). -/

theorem drop_replicate (c : Char) :
    ∀ (i n : Nat), (List.replicate n c).drop i = List.replicate (n - i) c := by
  intro i
  induction i with
  | zero => intro n; simp
  | succ i ih =>
    intro n
    cases n with
    | zero => simp
    | succ n =>
      rw [List.replicate_succ, List.drop_succ_cons, ih, Nat.succ_sub_succ]

theorem runLen_rep_aligned {x y z : Char} (hxy : x ≠ y) (hxz : x ≠ z)
    (hyz : y ≠ z) :
    ∀ (p q m m2 : Nat),
      runLen (List.replicate p x ++ List.replicate m y)
        (List.replicate q x ++ List.replicate m2 z) = min p q := by
  intro p
  induction p with
  | zero =>
    intro q m m2
    rw [List.replicate_zero, List.nil_append, Nat.zero_min]
    cases m with
    | zero => rw [List.replicate_zero]; rfl
    | succ m =>
      rw [List.replicate_succ]
      cases q with
      | zero =>
        rw [List.replicate_zero, List.nil_append]
        cases m2 with
        | zero => rfl
        | succ m2 =>
          rw [List.replicate_succ]
          unfold runLen
          rw [if_neg hyz]
      | succ q =>
        rw [List.replicate_succ, List.cons_append]
        unfold runLen
        rw [if_neg (fun h => hxy h.symm)]
  | succ p ih =>
    intro q m m2
    rw [List.replicate_succ, List.cons_append]
    cases q with
    | zero =>
      rw [List.replicate_zero, List.nil_append, Nat.min_zero]
      cases m2 with
      | zero => rw [List.replicate_zero]; rfl
      | succ m2 =>
        rw [List.replicate_succ]
        unfold runLen
        rw [if_neg hxz]
    | succ q =>
      rw [List.replicate_succ, List.cons_append]
      unfold runLen
      rw [if_pos rfl, ih q m m2, Nat.succ_min_succ]

theorem totalMAux_rep_distinct {y z : Char} (hyz : y ≠ z) :
    ∀ (fuel m m2 : Nat),
      totalMAux fuel (List.replicate m y) (List.replicate m2 z) = 0 := by
  intro fuel m m2
  cases fuel with
  | zero => rfl
  | succ fuel =>
    have hrun : ∀ i j,
        runLen ((List.replicate m y).drop i) ((List.replicate m2 z).drop j)
          = 0 := by
      intro i j
      rw [drop_replicate, drop_replicate]
      cases hm : m - i with
      | zero => rfl
      | succ m3 =>
        rw [List.replicate_succ]
        cases hm2 : m2 - j with
        | zero => rfl
        | succ m4 =>
          rw [List.replicate_succ]
          unfold runLen
          rw [if_neg hyz]
    have hinv := lmFold_inv (List.replicate m y) (List.replicate m2 z)
    rcases hfold : lmFold (List.replicate m y) (List.replicate m2 z)
      with ⟨i, j, k⟩
    rw [hfold] at hinv
    rcases hinv with h0 | ⟨_, _, hk, hkeq⟩
    · simp only [Prod.mk.injEq] at h0
      simp only [totalMAux, hfold]
      rw [if_neg (by omega)]
    · simp only at hk hkeq
      rw [hrun i j] at hkeq
      omega

theorem lmFold_rep_aligned {x y z : Char} (hxy : x ≠ y) (hxz : x ≠ z)
    (hyz : y ≠ z) (n m m2 : Nat) (hn : 0 < n) :
    lmFold (List.replicate n x ++ List.replicate m y)
      (List.replicate n x ++ List.replicate m2 z) = (0, 0, n) := by
  have hla : (List.replicate n x ++ List.replicate m y).length = n + m := by
    simp
  have hlb : (List.replicate n x ++ List.replicate m2 z).length = n + m2 := by
    simp
  have hrun : ∀ i j,
      runLen ((List.replicate n x ++ List.replicate m y).drop i)
        ((List.replicate n x ++ List.replicate m2 z).drop j)
        = min (n - i) (n - j) := by
    intro i j
    rw [List.drop_append_eq_append_drop, List.drop_append_eq_append_drop,
      drop_replicate, drop_replicate, drop_replicate, drop_replicate,
      List.length_replicate]
    exact runLen_rep_aligned hxy hxz hyz _ _ _ _
  have hge := lmFold_ge (List.replicate n x ++ List.replicate m y)
    (List.replicate n x ++ List.replicate m2 z) (i := 0) (j := 0)
    (by omega) (by omega)
  have hrun00 := hrun 0 0
  rw [List.drop_zero, List.drop_zero] at hrun00
  rw [List.drop_zero, List.drop_zero, hrun00] at hge
  simp only [Nat.sub_zero, Nat.min_self] at hge
  have hinv := lmFold_inv (List.replicate n x ++ List.replicate m y)
    (List.replicate n x ++ List.replicate m2 z)
  rcases hfold : lmFold (List.replicate n x ++ List.replicate m y)
    (List.replicate n x ++ List.replicate m2 z) with ⟨i, j, k⟩
  rw [hfold] at hinv hge
  simp only at hge
  rcases hinv with h0 | ⟨hi, hj, hk, hkeq⟩
  · simp only [Prod.mk.injEq] at h0
    omega
  · simp only at hi hj hk hkeq
    rw [hrun i j] at hkeq
    have hi0 : i = 0 := by omega
    have hj0 : j = 0 := by omega
    have hkn : k = n := by omega
    rw [hi0, hj0, hkn]

theorem totalM_rep_aligned {x y z : Char} (hxy : x ≠ y) (hxz : x ≠ z)
    (hyz : y ≠ z) (n m m2 : Nat) (hn : 0 < n) :
    totalM (List.replicate n x ++ List.replicate m y)
      (List.replicate n x ++ List.replicate m2 z) = n := by
  have hla : (List.replicate n x ++ List.replicate m y).length = n + m := by
    simp
  have hfold := lmFold_rep_aligned hxy hxz hyz n m m2 hn
  obtain ⟨f, hf⟩ :
      ∃ f, (List.replicate n x ++ List.replicate m y).length = f + 1 :=
    ⟨(List.replicate n x ++ List.replicate m y).length - 1, by omega⟩
  unfold totalM
  rw [hf]
  simp only [totalMAux, hfold]
  rw [if_pos hn]
  simp only [List.take_zero, Nat.zero_add]
  rw [totalMAux_nil_left]
  have hda : (List.replicate n x ++ List.replicate m y).drop n
      = List.replicate m y :=
    List.drop_left' (List.length_replicate n x)
  have hdb : (List.replicate n x ++ List.replicate m2 z).drop n
      = List.replicate m2 z :=
    List.drop_left' (List.length_replicate n x)
  rw [hda, hdb, totalMAux_rep_distinct hyz]
  omega

/-! ## Association-list lemmas -/

theorem insertA_mem :
    ∀ (m : List (String × String)) (k v : String) (kv : String × String),
      kv ∈ insertA m k v → kv ∈ m ∨ kv = (k, v) := by
  intro m
  induction m with
  | nil =>
    intro k v kv h
    exact Or.inr (List.mem_singleton.mp h)
  | cons hd tl ih =>
    intro k v kv h
    unfold insertA at h
    split at h
    · rcases List.mem_cons.mp h with rfl | h
      · exact Or.inr rfl
      · exact Or.inl (List.mem_cons_of_mem hd h)
    · rcases List.mem_cons.mp h with rfl | h
      · exact Or.inl (List.mem_cons_self kv tl)
      · rcases ih k v kv h with h2 | h2
        · exact Or.inl (List.mem_cons_of_mem hd h2)
        · exact Or.inr h2

theorem lookupA_insertA_self :
    ∀ (m : List (String × String)) (k v : String),
      lookupA (insertA m k v) k = some v := by
  intro m
  induction m with
  | nil => intro k v; simp [insertA, lookupA]
  | cons hd tl ih =>
    intro k v
    unfold insertA
    split
    · simp [lookupA]
    · rename_i hne
      unfold lookupA
      rw [if_neg hne]
      exact ih k v

theorem lookupA_insertA_ne :
    ∀ (m : List (String × String)) (k v k2 : String), k2 ≠ k →
      lookupA (insertA m k v) k2 = lookupA m k2 := by
  intro m
  induction m with
  | nil =>
    intro k v k2 h
    show lookupA [(k, v)] k2 = lookupA [] k2
    unfold lookupA
    rw [if_neg (fun he => h (Eq.symm he))]
    rfl
  | cons hd tl ih =>
    intro k v k2 h
    unfold insertA
    split
    · rename_i heq
      show lookupA ((k, v) :: tl) k2 = lookupA (hd :: tl) k2
      unfold lookupA
      rw [if_neg (fun he => h (Eq.symm he)),
        if_neg (by rw [heq]; exact fun he => h (Eq.symm he))]
    · show lookupA (hd :: insertA tl k v) k2 = lookupA (hd :: tl) k2
      unfold lookupA
      split
      · rfl
      · exact ih k v k2 h

theorem lookupA_mem :
    ∀ (m : List (String × String)) (k v : String),
      lookupA m k = some v → (k, v) ∈ m := by
  intro m
  induction m with
  | nil => intro k v h; exact absurd h (by simp [lookupA])
  | cons hd tl ih =>
    intro k v h
    unfold lookupA at h
    split at h
    · rename_i heq
      obtain rfl := Option.some.inj h
      rw [← heq]
      exact List.mem_cons_self hd tl
    · exact List.mem_cons_of_mem hd (ih k v h)

theorem lookupA_isSome_insertA
    (m : List (String × String)) (k v k2 : String)
    (h : (lookupA m k2).isSome) : (lookupA (insertA m k v) k2).isSome := by
  by_cases hk : k2 = k
  · subst hk
    rw [lookupA_insertA_self]
    rfl
  · rw [lookupA_insertA_ne m k v k2 hk]
    exact h

theorem keysA_insertA :
    ∀ (m : List (String × String)) (k v : String),
      (insertA m k v).map Prod.fst =
        if k ∈ m.map Prod.fst then m.map Prod.fst
        else m.map Prod.fst ++ [k] := by
  intro m
  induction m with
  | nil => intro k v; simp [insertA]
  | cons hd tl ih =>
    intro k v
    unfold insertA
    split
    · rename_i heq
      simp only [List.map_cons]
      rw [if_pos (by rw [heq]; exact List.mem_cons_self _ _)]
      simp [heq]
    · rename_i hne
      simp only [List.map_cons, ih k v]
      by_cases hmem : k ∈ tl.map Prod.fst
      · rw [if_pos hmem, if_pos (List.mem_cons_of_mem _ hmem)]
      · rw [if_neg hmem,
          if_neg (by
            intro hc
            rcases List.mem_cons.mp hc with hc | hc
            · exact hne hc.symm
            · exact hmem hc)]
        simp

theorem nodup_keys_insertA {m : List (String × String)} {k v : String}
    (h : (m.map Prod.fst).Nodup) :
    ((insertA m k v).map Prod.fst).Nodup := by
  rw [keysA_insertA]
  split
  · exact h
  · rename_i hmem
    rw [List.nodup_append]
    exact ⟨h, List.nodup_singleton k,
      fun x hx hx1 => hmem ((List.mem_singleton.mp hx1) ▸ hx)⟩

/-! ## `ghNormMap` invariants -/

theorem ghNormMap_aux :
    ∀ (l : List String) (m0 : List (String × String)),
      (∀ kv ∈ m0, kv.1 = normalize_name kv.2) →
      ∀ kv ∈ l.foldl (fun m f => insertA m (normalize_name f) f) m0,
        kv.1 = normalize_name kv.2 ∧ (kv ∈ m0 ∨ kv.2 ∈ l) := by
  intro l
  induction l with
  | nil =>
    intro m0 h0 kv h
    exact ⟨h0 kv h, Or.inl h⟩
  | cons f l ih =>
    intro m0 h0 kv h
    rw [List.foldl_cons] at h
    have h0' : ∀ kv ∈ insertA m0 (normalize_name f) f,
        kv.1 = normalize_name kv.2 := by
      intro kv hkv
      rcases insertA_mem m0 (normalize_name f) f kv hkv with h2 | h2
      · exact h0 kv h2
      · rw [h2]
    obtain ⟨hn, hm⟩ := ih (insertA m0 (normalize_name f) f) h0' kv h
    refine ⟨hn, ?_⟩
    rcases hm with hm | hm
    · rcases insertA_mem m0 (normalize_name f) f kv hm with h2 | h2
      · exact Or.inl h2
      · exact Or.inr (by rw [h2]; exact List.mem_cons_self f l)
    · exact Or.inr (List.mem_cons_of_mem f hm)

theorem ghNormMap_mem (gh_fields : List String) (kv : String × String)
    (h : kv ∈ ghNormMap gh_fields) :
    kv.1 = normalize_name kv.2 ∧ kv.2 ∈ gh_fields := by
  have := ghNormMap_aux gh_fields [] (by intro kv hkv; exact absurd hkv (List.not_mem_nil kv)) kv h
  rcases this with ⟨hn, hm | hm⟩
  · exact absurd hm (List.not_mem_nil kv)
  · exact ⟨hn, hm⟩

theorem ghNormMap_key_aux :
    ∀ (l : List String) (m0 : List (String × String)) (f : String),
      (f ∈ l ∨ (lookupA m0 (normalize_name f)).isSome) →
      (lookupA (l.foldl (fun m g => insertA m (normalize_name g) g) m0)
        (normalize_name f)).isSome := by
  intro l
  induction l with
  | nil =>
    intro m0 f h
    rcases h with h | h
    · exact absurd h (List.not_mem_nil f)
    · exact h
  | cons g l ih =>
    intro m0 f h
    rw [List.foldl_cons]
    apply ih
    rcases h with h | h
    · rcases List.mem_cons.mp h with rfl | h
      · right
        rw [lookupA_insertA_self]
        rfl
      · exact Or.inl h
    · exact Or.inr (lookupA_isSome_insertA m0 _ g _ h)

theorem ghNormMap_lookup_isSome {gh_fields : List String} {f : String}
    (h : f ∈ gh_fields) :
    (lookupA (ghNormMap gh_fields) (normalize_name f)).isSome :=
  ghNormMap_key_aux gh_fields [] f (Or.inl h)

/-! ## Fuzzy-match lemmas -/

theorem fuzzyBest_snd (norm_sn : String) :
    ∀ (l : List (String × String)) (o : Option String) (q : ℚ),
      (l.foldl
        (fun best kv =>
          if best.2 < ratioS norm_sn kv.1 then (some kv.2, ratioS norm_sn kv.1)
          else best)
        (o, q)).2 =
      l.foldl (fun q kv => max q (ratioS norm_sn kv.1)) q := by
  intro l
  induction l with
  | nil => intro o q; rfl
  | cons kv l ih =>
    intro o q
    rw [List.foldl_cons, List.foldl_cons]
    by_cases h : q < ratioS norm_sn kv.1
    · rw [if_pos h, ih, max_eq_right (le_of_lt h)]
    · rw [if_neg h, ih, max_eq_left (not_lt.mp h)]

theorem fuzzyBest_snd_eq_max (norm_sn : String)
    (m : List (String × String)) :
    (fuzzyBest norm_sn m).2 = maxFuzzyScore norm_sn m :=
  fuzzyBest_snd norm_sn m none 0

theorem fuzzyBest_fold_spec (norm_sn : String) (M : List (String × String)) :
    ∀ (l : List (String × String)) (acc : Option String × ℚ),
      (∀ kv ∈ l, kv ∈ M) →
      (acc = (none, 0) ∨
        ∃ kv ∈ M, acc.1 = some kv.2 ∧ acc.2 = ratioS norm_sn kv.1 ∧
          0 < acc.2) →
      ((l.foldl
          (fun best kv =>
            if best.2 < ratioS norm_sn kv.1 then
              (some kv.2, ratioS norm_sn kv.1)
            else best)
          acc) = (none, 0) ∨
        ∃ kv ∈ M,
          (l.foldl
            (fun best kv =>
              if best.2 < ratioS norm_sn kv.1 then
                (some kv.2, ratioS norm_sn kv.1)
              else best)
            acc).1 = some kv.2 ∧
          (l.foldl
            (fun best kv =>
              if best.2 < ratioS norm_sn kv.1 then
                (some kv.2, ratioS norm_sn kv.1)
              else best)
            acc).2 = ratioS norm_sn kv.1 ∧
          0 < (l.foldl
            (fun best kv =>
              if best.2 < ratioS norm_sn kv.1 then
                (some kv.2, ratioS norm_sn kv.1)
              else best)
            acc).2) := by
  intro l
  induction l with
  | nil => intro acc _ h; exact h
  | cons kv l ih =>
    intro acc hl h
    rw [List.foldl_cons]
    apply ih
    · intro kv2 h2
      exact hl kv2 (List.mem_cons_of_mem kv h2)
    · by_cases hlt : acc.2 < ratioS norm_sn kv.1
      · rw [if_pos hlt]
        right
        refine ⟨kv, hl kv (List.mem_cons_self kv l), rfl, rfl, ?_⟩
        have hnn : 0 ≤ acc.2 := by
          rcases h with h0 | ⟨kv2, _, _, _, hp⟩
          · rw [h0]
          · exact le_of_lt hp
        exact lt_of_le_of_lt hnn hlt
      · rw [if_neg hlt]
        exact h

theorem fuzzyBest_spec (norm_sn : String) (m : List (String × String)) :
    fuzzyBest norm_sn m = (none, 0) ∨
      ∃ kv ∈ m, (fuzzyBest norm_sn m).1 = some kv.2 ∧
        (fuzzyBest norm_sn m).2 = ratioS norm_sn kv.1 ∧
        0 < (fuzzyBest norm_sn m).2 :=
  fuzzyBest_fold_spec norm_sn m m (none, 0) (fun _ h => h) (Or.inl rfl)

theorem ratioS_nonneg (a b : String) : 0 ≤ ratioS a b :=
  ratioQ_nonneg a.data b.data

theorem maxFuzzyScore_nonneg (norm_sn : String) :
    ∀ (l : List (String × String)) (q : ℚ) , 0 ≤ q →
      0 ≤ l.foldl (fun q kv => max q (ratioS norm_sn kv.1)) q := by
  intro l
  induction l with
  | nil => intro q h; exact h
  | cons kv l ih =>
    intro q h
    rw [List.foldl_cons]
    exact ih _ (le_trans h (le_max_left _ _))

/-- A positive similarity against the key `k` forces `k` to be non-empty. -/
theorem ratioS_pos_key_ne_empty {n k : String} (hn : n ≠ "")
    (h : 0 < ratioS n k) : k ≠ "" := by
  intro hk
  subst hk
  have hd : ("" : String).data = [] := rfl
  unfold ratioS ratioQ at h
  rw [hd] at h
  have hnd : n.data ≠ [] := by
    intro hc
    apply hn
    cases n with
    | mk l => cases hc; rfl
  have hlen : 0 < n.data.length := List.length_pos.mpr hnd
  rw [if_neg (by simp only [List.length_nil, Nat.add_zero]; omega)] at h
  have hM : totalM n.data [] = 0 := by
    have := totalM_le_right n.data []
    simpa using this
  rw [hM] at h
  norm_num at h

/-! ## `synLoop` and `chooseStep` lemmas -/

theorem synLoop_some_mem :
    ∀ (cands : List String) (gmap : List (String × String)) (sn g : String)
      (ns : List MatchNote),
      synLoop gmap sn cands = (some g, ns) → ∃ k, (k, g) ∈ gmap := by
  intro cands
  induction cands with
  | nil =>
    intro gmap sn g ns h
    exact absurd (congrArg Prod.fst h) (by simp [synLoop])
  | cons c cs ih =>
    intro gmap sn g ns h
    unfold synLoop at h
    split at h
    · rename_i g0 hx
      obtain ⟨h1, -⟩ := Prod.mk.injEq .. ▸ h
      obtain rfl := Option.some.inj (h1 : some g0 = some g)
      exact ⟨normalize_name c, lookupA_mem _ _ _ hx⟩
    · exact ih gmap sn g ns h

theorem fuzzy_match_some {norm_sn : String} {m : List (String × String)}
    {g : String} {s : ℚ} (h : fuzzy_match norm_sn m = (some g, s)) :
    (∃ kv ∈ m, kv.2 = g) ∧ g ≠ "" := by
  unfold fuzzy_match at h
  split at h
  · rename_i hcond
    rcases fuzzyBest_spec norm_sn m with h0 | ⟨kv, hmem, h1, -, -⟩
    · rw [h0] at h
      exact absurd (congrArg Prod.fst h) (by simp)
    · have hg : (fuzzyBest norm_sn m).1 = some g := congrArg Prod.fst h
      rw [hg] at h1
      obtain rfl := Option.some.inj h1.symm
      refine ⟨⟨kv, hmem, rfl⟩, ?_⟩
      have := hcond.1
      rw [hg] at this
      simpa [pyTruthyOpt] using this
  · exact absurd (congrArg Prod.fst h) (by simp)

theorem chooseStep_some {gmap : List (String × String)} {sn g : String}
    (h : (chooseStep gmap sn).1 = some g) :
    (∃ k, (k, g) ∈ gmap) ∧ g ≠ "" := by
  unfold chooseStep at h
  split at h
  · rename_i htruthy
    have hne : g ≠ "" := by
      rw [h] at htruthy
      simpa [pyTruthyOpt] using htruthy
    refine ⟨?_, hne⟩
    unfold chooseFirst at h
    split at h
    · rename_i g0 hx
      obtain rfl : g0 = g := Option.some.inj h
      exact ⟨normalize_name sn, lookupA_mem _ _ _ hx⟩
    · rcases hsyn : synLoop gmap sn (synCandidates (normalize_name sn)) with
        ⟨o, ns⟩
      rw [hsyn] at h
      have ho : o = some g := h
      rw [ho] at hsyn
      exact synLoop_some_mem _ gmap sn g ns hsyn
  · rcases hfm : fuzzy_match (normalize_name sn) gmap with ⟨o, s⟩
    rw [hfm] at h
    cases o with
    | none => exact absurd h (by simp)
    | some g1 =>
      obtain rfl : g1 = g := Option.some.inj h
      obtain ⟨⟨kv, hmem, hkv⟩, hne⟩ := fuzzy_match_some hfm
      refine ⟨⟨kv.1, ?_⟩, hne⟩
      rw [← hkv]
      exact hmem

/-- A non-empty exact normalized match wins before synonyms and fuzzy. -/
theorem chooseStep_exact {gmap : List (String × String)} {sn g : String}
    (hx : lookupA gmap (normalize_name sn) = some g) (hg : g ≠ "") :
    (chooseStep gmap sn).1 = some g := by
  have hcf : chooseFirst gmap sn = (some g, [MatchNote.exact sn g]) := by
    unfold chooseFirst
    rw [hx]
  unfold chooseStep
  rw [hcf, if_pos (by simp [pyTruthyOpt, hg])]

/-! ## `suggest_mapping` fold lemmas -/

theorem suggest_lookup_some (gmap : List (String × String)) {sn g : String}
    (hc : (chooseStep gmap sn).1 = some g) (hg : g ≠ "") :
    ∀ (l : List String) (acc : List (String × String) × List MatchNote),
      (sn ∈ l ∨ lookupA acc.1 sn = some g) →
      lookupA ((l.foldl (suggestStep gmap) acc).1) sn = some g := by
  intro l
  induction l with
  | nil =>
    intro acc h
    rcases h with h | h
    · exact absurd h (List.not_mem_nil sn)
    · exact h
  | cons x l ih =>
    intro acc h
    rw [List.foldl_cons]
    apply ih
    by_cases hx : x = sn
    · subst hx
      right
      show lookupA (match (chooseStep gmap x).1 with
        | some g => if g = "" then acc.1 else insertA acc.1 x g
        | none => acc.1) x = some g
      rw [hc]
      simp only
      rw [if_neg hg]
      exact lookupA_insertA_self acc.1 x g
    · have hpres : lookupA ((suggestStep gmap acc x).1) sn = lookupA acc.1 sn := by
        show lookupA (match (chooseStep gmap x).1 with
          | some g => if g = "" then acc.1 else insertA acc.1 x g
          | none => acc.1) sn = lookupA acc.1 sn
        rcases hcx : (chooseStep gmap x).1 with - | g2
        · rfl
        · simp only
          split
          · rfl
          · exact lookupA_insertA_ne acc.1 x g2 sn (fun he => hx he.symm)
      rcases h with h | h
      · rcases List.mem_cons.mp h with rfl | h
        · exact absurd rfl hx
        · exact Or.inl h
      · right
        rw [hpres]
        exact h

theorem suggest_lookup_none (gmap : List (String × String)) {sn : String}
    (hc : (chooseStep gmap sn).1 = none) :
    ∀ (l : List String) (acc : List (String × String) × List MatchNote),
      lookupA acc.1 sn = none →
      lookupA ((l.foldl (suggestStep gmap) acc).1) sn = none := by
  intro l
  induction l with
  | nil => intro acc h; exact h
  | cons x l ih =>
    intro acc h
    rw [List.foldl_cons]
    apply ih
    show lookupA (match (chooseStep gmap x).1 with
      | some g => if g = "" then acc.1 else insertA acc.1 x g
      | none => acc.1) sn = none
    by_cases hx : x = sn
    · subst hx
      rw [hc]
      exact h
    · rcases hcx : (chooseStep gmap x).1 with - | g2
      · exact h
      · simp only
        split
        · exact h
        · rw [lookupA_insertA_ne acc.1 x g2 sn (fun he => hx he.symm)]
          exact h

theorem suggest_wf_aux (gmap : List (String × String))
    (gh_fields sn_fields : List String)
    (hgm : ∀ kv ∈ gmap, kv.2 ∈ gh_fields) :
    ∀ (l : List String) (acc : List (String × String) × List MatchNote),
      (∀ x ∈ l, x ∈ sn_fields) →
      (∀ kv ∈ acc.1, kv.1 ∈ sn_fields ∧ kv.2 ∈ gh_fields) →
      (acc.1.map Prod.fst).Nodup →
      (∀ kv ∈ (l.foldl (suggestStep gmap) acc).1,
        kv.1 ∈ sn_fields ∧ kv.2 ∈ gh_fields) ∧
        ((l.foldl (suggestStep gmap) acc).1.map Prod.fst).Nodup := by
  intro l
  induction l with
  | nil => intro acc _ hacc hnd; exact ⟨hacc, hnd⟩
  | cons x l ih =>
    intro acc hl hacc hnd
    rw [List.foldl_cons]
    apply ih
    · intro y hy
      exact hl y (List.mem_cons_of_mem x hy)
    · intro kv hkv
      revert hkv
      show kv ∈ (match (chooseStep gmap x).1 with
        | some g => if g = "" then acc.1 else insertA acc.1 x g
        | none => acc.1) → _
      rcases hcx : (chooseStep gmap x).1 with - | g2
      · exact hacc kv
      · simp only
        split
        · exact hacc kv
        · intro hkv
          rcases insertA_mem acc.1 x g2 kv hkv with h2 | h2
          · exact hacc kv h2
          · rw [h2]
            obtain ⟨⟨k0, hk0⟩, -⟩ := chooseStep_some hcx
            exact ⟨hl x (List.mem_cons_self x l), hgm (k0, g2) hk0⟩
    · show ((match (chooseStep gmap x).1 with
        | some g => if g = "" then acc.1 else insertA acc.1 x g
        | none => acc.1).map Prod.fst).Nodup
      rcases hcx : (chooseStep gmap x).1 with - | g2
      · exact hnd
      · simp only
        split
        · exact hnd
        · exact nodup_keys_insertA hnd

/-! ## `C10`: well-formedness of the suggested mapping -/

/-- `C10`: every key of the suggested mapping is one of the input table
fields, each key occurs at most once, and every value is one of the input
repository fields in its original spelling. -/
theorem C10_suggest_mapping_well_formed :
    ∀ (sn_fields gh_fields : List String),
      (∀ kv ∈ (suggest_mapping sn_fields gh_fields).1,
        kv.1 ∈ sn_fields ∧ kv.2 ∈ gh_fields) ∧
      ((suggest_mapping sn_fields gh_fields).1.map Prod.fst).Nodup := by
  intro sn_fields gh_fields
  exact suggest_wf_aux (ghNormMap gh_fields) gh_fields sn_fields
    (fun kv h => (ghNormMap_mem gh_fields kv h).2)
    sn_fields ([], []) (fun x hx => hx)
    (fun kv hkv => absurd hkv (List.not_mem_nil kv))
    List.nodup_nil

/-- Witness for `C10` at a concrete input. -/
theorem C10_witness :
    (("state" : String) ∈ ["state", "name"] ∧
      ("state" : String) ∈ ["name", "state"]) ∧
    (((suggest_mapping ["state", "name"] ["name", "state"]).1.map
      Prod.fst).Nodup) :=
  ⟨(C10_suggest_mapping_well_formed ["state", "name"]
      ["name", "state"]).1 ("state", "state") (by decide),
   (C10_suggest_mapping_well_formed ["state", "name"]
      ["name", "state"]).2⟩

/-! ## `C5`: strategy precedence -/

/-- `C5` counterexample: the claim fails for a repository field whose name
is the empty string.  The table field `"!"` and the repository field `""`
have equal normalized names (both normalize to `""`), yet the result omits
the pair: the exact-match hit `""` is falsy in Python (`if not chosen:`),
so the fuzzy fallback runs, and its best candidate `""` is discarded by the
`if best[0]` truthiness test. -/
theorem C5_counterexample :
    normalize_name "!" = normalize_name "" ∧
    ("" : String) ∈ ([""] : List String) ∧
    (suggest_mapping ["!"] [""]).1 = [] := by
  refine ⟨by decide, by decide, by decide⟩

/-- `C5` (amended): if the table field has a non-empty normalized name that
exactly equals some repository field's normalized name, the result maps it
to the repository field registered under that normalized name — even when a
synonym candidate or a higher-scoring fuzzy candidate also exists. -/
theorem C5_exact_match_precedence :
    ∀ (sn_fields gh_fields : List String) (sn f : String),
      sn ∈ sn_fields → f ∈ gh_fields →
      normalize_name f = normalize_name sn →
      normalize_name sn ≠ "" →
      ∃ g, lookupA (suggest_mapping sn_fields gh_fields).1 sn = some g ∧
        lookupA (ghNormMap gh_fields) (normalize_name sn) = some g ∧
        g ∈ gh_fields ∧ normalize_name g = normalize_name sn := by
  intro sn_fields gh_fields sn f hsn hf hnorm hne
  have hsome := ghNormMap_lookup_isSome hf
  rw [hnorm] at hsome
  obtain ⟨g, hg⟩ := Option.isSome_iff_exists.mp hsome
  have hmem := lookupA_mem _ _ _ hg
  have hinv := ghNormMap_mem gh_fields (normalize_name sn, g) hmem
  have hgn : normalize_name g = normalize_name sn := hinv.1.symm
  have hgne : g ≠ "" := by
    intro hc
    apply hne
    rw [← hgn, hc]
    rfl
  have hcs := chooseStep_exact hg hgne
  refine ⟨g, ?_, hg, hinv.2, hgn⟩
  unfold suggest_mapping
  exact suggest_lookup_some (ghNormMap gh_fields) hcs hgne sn_fields
    ([], []) (Or.inl hsn)

/-- Witness for `C5`: `"Priority"` maps to the exact normalized match
`"priority"`. -/
theorem C5_witness :
    ∃ g,
      lookupA (suggest_mapping ["Priority"] ["priority"]).1 "Priority"
        = some g ∧
      lookupA (ghNormMap ["priority"]) (normalize_name "Priority")
        = some g ∧
      g ∈ ["priority"] ∧ normalize_name g = normalize_name "Priority" :=
  C5_exact_match_precedence ["Priority"] ["priority"] "Priority" "priority"
    (by decide) (by decide) (by decide) (by decide)

/-! ## `C6`: the fuzzy threshold -/

/-- A normalized pair with similarity exactly `0.78`:
39 shared characters, total length 100. -/
def boundaryA : String := ⟨List.replicate 39 'a' ++ List.replicate 11 'b'⟩

def boundaryB : String := ⟨List.replicate 39 'a' ++ List.replicate 11 'c'⟩

/-- A pair strictly below the threshold: `0.76`. -/
def belowA : String := ⟨List.replicate 38 'a' ++ List.replicate 12 'b'⟩

def belowB : String := ⟨List.replicate 38 'a' ++ List.replicate 12 'c'⟩

theorem ratio_boundary : ratioS boundaryA boundaryB = 39 / 50 := by
  show ratioQ (List.replicate 39 'a' ++ List.replicate 11 'b')
    (List.replicate 39 'a' ++ List.replicate 11 'c') = 39 / 50
  unfold ratioQ
  rw [totalM_rep_aligned (by decide) (by decide) (by decide) 39 11 11
    (by norm_num)]
  rw [if_neg (by simp)]
  simp only [List.length_append, List.length_replicate]
  norm_num

theorem ratio_below : ratioS belowA belowB = 19 / 25 := by
  show ratioQ (List.replicate 38 'a' ++ List.replicate 12 'b')
    (List.replicate 38 'a' ++ List.replicate 12 'c') = 19 / 25
  unfold ratioQ
  rw [totalM_rep_aligned (by decide) (by decide) (by decide) 38 12 12
    (by norm_num)]
  rw [if_neg (by simp)]
  simp only [List.length_append, List.length_replicate]
  norm_num

/-- `C6` counterexample: with the empty-named repository field, the maximal
similarity is `1.0 ≥ 0.78` and yet the fuzzy match is rejected (the best
candidate fails the Python truthiness test), so "accepted exactly when the
maximum is `≥ 0.78`" is false as stated. -/
theorem C6_counterexample :
    maxFuzzyScore "" (ghNormMap [""]) = 1 ∧
    FUZZY_THRESHOLD ≤ 1 ∧
    fuzzy_match "" (ghNormMap [""]) = (none, 0) := by
  have hnm : ghNormMap [""] = [("", "")] := by decide
  have hr : ratioS "" "" = 1 := (ratioQ_eq_one_iff _ _).mpr rfl
  refine ⟨?_, by norm_num [FUZZY_THRESHOLD], ?_⟩
  · rw [hnm]
    unfold maxFuzzyScore
    simp only [List.foldl_cons, List.foldl_nil, hr]
    norm_num
  · have hb : fuzzyBest "" (ghNormMap [""]) = (some "", 1) := by
      rw [hnm]
      unfold fuzzyBest
      simp only [List.foldl_cons, List.foldl_nil, hr]
      rw [if_pos (by norm_num)]
    unfold fuzzy_match
    rw [hb]
    rw [if_neg (by simp [pyTruthyOpt])]

/-- `C6` (amended): provided the table field's normalized name is
non-empty, the fuzzy strategy accepts exactly when the maximal similarity
over the repository fields is `≥ 0.78`; a pair with similarity exactly
`0.78` matches and one strictly below does not; and a table field matching
under no strategy is omitted from the result rather than erroring. -/
theorem C6_fuzzy_threshold :
    (∀ (norm_sn : String) (gh_fields : List String), norm_sn ≠ "" →
      ((fuzzy_match norm_sn (ghNormMap gh_fields)).1 ≠ none ↔
        FUZZY_THRESHOLD ≤ maxFuzzyScore norm_sn (ghNormMap gh_fields))) ∧
    ratioS boundaryA boundaryB = 39 / 50 ∧
    fuzzy_match boundaryA (ghNormMap [boundaryB]) =
      (some boundaryB, 39 / 50) ∧
    ratioS belowA belowB = 19 / 25 ∧
    ratioS belowA belowB < FUZZY_THRESHOLD ∧
    fuzzy_match belowA (ghNormMap [belowB]) = (none, 0) ∧
    (∀ (sn_fields gh_fields : List String) (sn : String),
      (chooseStep (ghNormMap gh_fields) sn).1 = none →
      lookupA (suggest_mapping sn_fields gh_fields).1 sn = none) := by
  have hnmB : ghNormMap [boundaryB] = [(boundaryB, boundaryB)] := by decide
  have hnmL : ghNormMap [belowB] = [(belowB, belowB)] := by decide
  refine ⟨?_, ratio_boundary, ?_, ratio_below, ?_, ?_, ?_⟩
  · intro n gh hn
    constructor
    · intro h
      unfold fuzzy_match at h
      split at h
      · rename_i hcond
        rw [← fuzzyBest_snd_eq_max]
        exact hcond.2
      · exact absurd rfl h
    · intro hthr
      have hpos : (0 : ℚ) < FUZZY_THRESHOLD := by norm_num [FUZZY_THRESHOLD]
      have hmax : 0 < maxFuzzyScore n (ghNormMap gh) :=
        lt_of_lt_of_le hpos hthr
      have hbest2 := fuzzyBest_snd_eq_max n (ghNormMap gh)
      rcases fuzzyBest_spec n (ghNormMap gh) with h0 | ⟨kv, hmem, h1, h2, h3⟩
      · rw [h0] at hbest2
        rw [← hbest2] at hmax
        norm_num at hmax
      · have hkne : kv.1 ≠ "" := ratioS_pos_key_ne_empty hn (h2 ▸ h3)
        have hinv := ghNormMap_mem gh kv hmem
        have hvne : kv.2 ≠ "" := by
          intro hc
          apply hkne
          rw [hinv.1, hc]
          rfl
        unfold fuzzy_match
        rw [if_pos ⟨by rw [h1]; simp [pyTruthyOpt, hvne],
          by rw [hbest2]; exact hthr⟩]
        rw [h1]
        simp
  · have hb : fuzzyBest boundaryA (ghNormMap [boundaryB]) =
        (some boundaryB, 39 / 50) := by
      rw [hnmB]
      unfold fuzzyBest
      simp only [List.foldl_cons, List.foldl_nil, ratio_boundary]
      rw [if_pos (by norm_num)]
    unfold fuzzy_match
    rw [hb, if_pos ⟨by simp [pyTruthyOpt, boundaryB],
      by norm_num [FUZZY_THRESHOLD]⟩]
  · rw [ratio_below]
    norm_num [FUZZY_THRESHOLD]
  · have hb : fuzzyBest belowA (ghNormMap [belowB]) =
        (some belowB, 19 / 25) := by
      rw [hnmL]
      unfold fuzzyBest
      simp only [List.foldl_cons, List.foldl_nil, ratio_below]
      rw [if_pos (by norm_num)]
    unfold fuzzy_match
    rw [hb, if_neg (by
      rintro ⟨-, hle⟩
      norm_num [FUZZY_THRESHOLD] at hle)]
  · intro sn_fields gh_fields sn hc
    unfold suggest_mapping
    exact suggest_lookup_none (ghNormMap gh_fields) hc sn_fields ([], []) rfl

/-- Witness for `C6`: the threshold test accepts a perfect-score match. -/
theorem C6_witness :
    (fuzzy_match "state" (ghNormMap ["state"])).1 ≠ none := by
  apply (C6_fuzzy_threshold.1 "state" ["state"] (by decide)).mpr
  have hnm : ghNormMap ["state"] = [("state", "state")] := by decide
  have hr : ratioS "state" "state" = 1 := (ratioQ_eq_one_iff _ _).mpr rfl
  rw [hnm]
  unfold maxFuzzyScore
  simp only [List.foldl_cons, List.foldl_nil, hr]
  norm_num [FUZZY_THRESHOLD]

end XConnect
